import Mathlib

/-!
Shallow embedding of the chunking + vector retrieval core of the
SMART-DOCUMENT-AND-TEST-QA-AGENT repository
(src/Archive/backend_old/document_processor.py,
 src/Archive/backend_old/vector_database.py,
 src/Archive/backend_old/embedding_manager.py).

Modelling conventions:
* Python `str` is modelled as `List Char`; slicing and `strip()` are modelled
  by explicit clamped slice / whitespace-trim functions below.
* NumPy float vectors are modelled as `List ℚ`; a 2-D embedding matrix is a
  `List (List ℚ)` of rows.  `np.dot(matrix, vec)` is the row-wise dot product.
* `np.argsort` sorts ascending; its tie order is unspecified by NumPy, so the
  model fixes the stable choice (ties in original index order) before the
  `[::-1]` reversal, exactly one legal NumPy behaviour.
* Python's `list.sort(key=..., reverse=True)` (Timsort) is stable; it is
  modelled by a stable insertion sort, descending on the key.
* Python `l[:k]` for an `int` `k` (possibly negative) is `pyTake`.
* `uuid.uuid4()` / `datetime.now()` are modelled by caller-supplied
  `document_id` / `now` arguments (the code's only use of them is as fresh
  opaque strings).
* `hashlib.md5(text).hexdigest()` is modelled by an injective content key,
  the text itself (`hash_text`); the claims under study depend only on
  collision-freedom of the key.
* The dict `self.document_index` is modelled as an association list with
  dict write semantics (`indexSet` replaces an existing key, else appends).
-/

/-- Python `text[start:stop]` for `0 ≤ start ≤ stop`: clamped slice. -/
def pySlice (text : List Char) (start stop : Nat) : List Char :=
  (text.drop start).take (stop - start)

/-- Python `str.strip()`: remove leading and trailing whitespace. -/
def stripChars (l : List Char) : List Char :=
  ((l.dropWhile Char.isWhitespace).reverse.dropWhile Char.isWhitespace).reverse

/-- Python `l[:k]` for an `int` index `k`: clamped take, counting from the
end when `k` is negative. -/
def pyTake (k : Int) (l : List α) : List α :=
  if 0 ≤ k then l.take k.toNat else l.take (l.length - (-k).toNat)

/-- Python `list.insert(i, a)`: insert at position `i`, appending when `i`
is past the end. -/
def pyInsertIdx (l : List α) (i : Nat) (a : α) : List α :=
  l.take i ++ a :: l.drop i

/-- `text[i] in '.!?'` from `DocumentProcessor.chunk_text`. -/
def isSentenceEnd (c : Char) : Bool :=
  c = '.' || c = '!' || c = '?'

/-- The backward scan `for i in range(end, max(start+chunk_size-100, start), -1):
if text[i] in '.!?': ...` — returns the first index `i` (scanning `e` down to
`lb+1`) with a sentence-terminal character, if any. -/
def findBreak (text : List Char) (lb : Nat) : Nat → Option Nat
  | 0 => none
  | e + 1 =>
    if e + 1 ≤ lb then none
    else if isSentenceEnd (text.getD (e + 1) ' ') then some (e + 1)
    else findBreak text lb e

/-- The window-end computation of `chunk_text`: `end = start + chunk_size`,
then (when `end < len(text)`) cut back to just after the last sentence-terminal
character found by the bounded backward scan. -/
def chunkEnd (text : List Char) (chunk_size start : Nat) : Nat :=
  let e := start + chunk_size
  if e < text.length then
    match findBreak text (max (start + chunk_size - 100) start) e with
    | some i => i + 1
    | none => e
  else e

/-- `start = end - overlap; if start <= 0: start = end` from `chunk_text`. -/
def nextStart (e overlap : Nat) : Nat :=
  if e ≤ overlap then e else e - overlap

/-- A chunk record as built by `DocumentProcessor.chunk_text`. -/
structure Chunk where
  chunk_id : Nat
  text : List Char
  start_pos : Nat
  end_pos : Nat
  length : Nat
  page_number : Option Nat
  deriving DecidableEq

instance : Inhabited Chunk := ⟨⟨0, [], 0, 0, 0, none⟩⟩

/-- Consume a literal character sequence from the head of `l`. -/
def consumeLit : List Char → List Char → Option (List Char)
  | [], l => some l
  | _ :: _, [] => none
  | p :: ps, c :: cs => if p = c then consumeLit ps cs else none

/-- Digit run value: `int()` of a nonempty `\d+` match. -/
def digitsVal (ds : List Char) : Nat :=
  ds.foldl (fun a c => 10 * a + (c.toNat - '0'.toNat)) 0

/-- Match the page-marker regular expression `---\s*Page\s*(\d+)\s*---` at the
head of `l`; on success return the page number and the match length.  The
regex has no backtracking (each `\s*`/`\d+` is followed by a character it
cannot match), so the greedy linear matcher is exact. -/
def matchMarker (l : List Char) : Option (Nat × Nat) :=
  match consumeLit ['-', '-', '-'] l with
  | none => none
  | some r1 =>
    let r2 := r1.dropWhile Char.isWhitespace
    match consumeLit ['P', 'a', 'g', 'e'] r2 with
    | none => none
    | some r3 =>
      let r4 := r3.dropWhile Char.isWhitespace
      let ds := r4.takeWhile Char.isDigit
      if ds = [] then none
      else
        let r5 := (r4.dropWhile Char.isDigit).dropWhile Char.isWhitespace
        match consumeLit ['-', '-', '-'] r5 with
        | none => none
        | some r6 => some (digitsVal ds, l.length - r6.length)

/-- The scan of `re.finditer`: each step consumes at least one character, so
structural recursion on a step counter initialized to the text length is
exact. -/
def findMarkersGo : Nat → List Char → Nat → List (Nat × Nat)
  | 0, _, _ => []
  | _, [], _ => []
  | steps + 1, c :: rest, p =>
    match matchMarker (c :: rest) with
    | some (n, len) => (p, n) :: findMarkersGo steps (rest.drop (len - 1)) (p + len)
    | none => findMarkersGo steps rest (p + 1)

/-- `re.finditer` over the page-marker pattern: non-overlapping leftmost
matches, each reported as `(match.start(), page_number)`. -/
def findMarkers (l : List Char) (p : Nat) : List (Nat × Nat) :=
  findMarkersGo l.length l p

/-- The scan of `find_page_for_pos`: walk the markers in order, remembering
the page of each marker at or before `pos`, stopping at the first one past
`pos`. -/
def findPageGo (pos : Nat) : List (Nat × Nat) → Option Nat → Option Nat
  | [], cur => cur
  | (mp, pn) :: ms, cur => if mp ≤ pos then findPageGo pos ms (some pn) else cur

/-- `find_page_for_pos` from `chunk_text`: the page number of the last marker
at or before `pos`. -/
def find_page_for_pos (markers : List (Nat × Nat)) (pos : Nat) : Option Nat :=
  findPageGo pos markers none

/-- The `while start < len(text)` loop of `DocumentProcessor.chunk_text`,
with explicit fuel: `none` models non-termination (fuel exhausted before the
loop exits). -/
def chunkLoop (text : List Char) (chunk_size overlap : Nat)
    (markers : List (Nat × Nat)) : Nat → Nat → Nat → Option (List Chunk)
  | 0, _, _ => none
  | fuel + 1, start, cid =>
    if start < text.length then
      let e := chunkEnd text chunk_size start
      let ct := stripChars (pySlice text start e)
      let next := nextStart e overlap
      if ct = [] then chunkLoop text chunk_size overlap markers fuel next cid
      else
        match chunkLoop text chunk_size overlap markers fuel next (cid + 1) with
        | none => none
        | some rest =>
          some ({ chunk_id := cid, text := ct, start_pos := start, end_pos := e,
                  length := ct.length,
                  page_number := find_page_for_pos markers start } :: rest)
    else some []

/-- `DocumentProcessor.chunk_text(text, chunk_size, overlap)` (the
`EnhancedDocumentProcessor` variant is the identical loop minus the
`page_number` field).  `fuel` bounds the number of loop iterations; a result
`none` means the loop has not terminated within `fuel` iterations. -/
def chunk_text (text : List Char) (chunk_size overlap : Nat) (fuel : Nat) :
    Option (List Chunk) :=
  if text = [] then some [] else chunkLoop text chunk_size overlap (findMarkers text 0) fuel 0 0

/-! ## Vector database (`src/Archive/backend_old/vector_database.py`) -/

/-- The fields of the `document_data` dict consumed by `add_document`. -/
structure DocumentData where
  file_name : String
  file_path : String
  file_hash : String
  file_type : String
  file_size : Nat
  word_count : Nat
  char_count : Nat
  deriving DecidableEq

/-- A `document_entry` as stored in `self.documents`. -/
structure DocumentEntry where
  document_id : String
  file_name : String
  file_path : String
  file_hash : String
  file_type : String
  file_size : Nat
  word_count : Nat
  char_count : Nat
  chunk_count : Nat
  added_at : String
  chunks : List Chunk
  deriving DecidableEq

instance : Inhabited DocumentEntry :=
  ⟨⟨"", "", "", "", "", 0, 0, 0, 0, "", []⟩⟩

/-- Dict lookup in the `document_index` association list. -/
def indexLookup : List (String × Nat) → String → Option Nat
  | [], _ => none
  | (k, v) :: rest, s => if k = s then some v else indexLookup rest s

/-- Dict write `index[k] = v`: replace an existing key, else append. -/
def indexSet : List (String × Nat) → String → Nat → List (String × Nat)
  | [], k, v => [(k, v)]
  | (k', v') :: rest, k, v =>
    if k' = k then (k, v) :: rest else (k', v') :: indexSet rest k v

/-- `_rebuild_index`: `for i, doc in enumerate(self.documents):
index[doc['document_id']] = i`. -/
def rebuildGo : List DocumentEntry → Nat → List (String × Nat) → List (String × Nat)
  | [], _, idx => idx
  | d :: ds, i, idx => rebuildGo ds (i + 1) (indexSet idx d.document_id i)

def rebuildIndex (docs : List DocumentEntry) : List (String × Nat) :=
  rebuildGo docs 0 []

/-- In-memory state of `VectorDatabase`: the document list, the embedding
matrix (list of rows) and the id→position index. -/
structure VectorDatabase where
  documents : List DocumentEntry
  embeddings : List (List ℚ)
  document_index : List (String × Nat)
  deriving DecidableEq

def emptyDB : VectorDatabase := ⟨[], [], []⟩

/-- `VectorDatabase.add_document`: build the entry (with
`chunk_count = len(chunks)`), append it, stack the embeddings, and set
`document_index[document_id] = start_index`.  `document_id` models the fresh
`str(uuid.uuid4())`, `now` the `datetime.now().isoformat()` timestamp.
Persistence (`_save_database`) only mirrors the in-memory state. -/
def VectorDatabase.add_document (db : VectorDatabase) (document_data : DocumentData)
    (chunks : List Chunk) (embeddings : List (List ℚ))
    (document_id now : String) : String × VectorDatabase :=
  let entry : DocumentEntry :=
    { document_id := document_id
      file_name := document_data.file_name
      file_path := document_data.file_path
      file_hash := document_data.file_hash
      file_type := document_data.file_type
      file_size := document_data.file_size
      word_count := document_data.word_count
      char_count := document_data.char_count
      chunk_count := chunks.length
      added_at := now
      chunks := chunks }
  let start_index := db.documents.length
  (document_id,
    { documents := db.documents ++ [entry]
      embeddings := db.embeddings ++ embeddings
      document_index := indexSet db.document_index document_id start_index })

/-- The contiguous row span start of the document at position `p`:
`sum(doc['chunk_count'] for doc in self.documents[:p])`. -/
def docStart (db : VectorDatabase) (p : Nat) : Nat :=
  ((db.documents.take p).map (·.chunk_count)).sum

/-- `VectorDatabase.remove_document`: `False` if the id is unknown, else
delete the document's contiguous row span from the embedding matrix, delete
the document, and rebuild the index. -/
def VectorDatabase.remove_document (db : VectorDatabase) (document_id : String) :
    Bool × VectorDatabase :=
  match indexLookup db.document_index document_id with
  | none => (false, db)
  | some doc_index =>
    let document := db.documents.getD doc_index default
    let chunk_count := document.chunk_count
    let start_idx := docStart db doc_index
    let end_idx := start_idx + chunk_count
    let documents := db.documents.eraseIdx doc_index
    (true,
      { documents := documents
        embeddings := db.embeddings.take start_idx ++ db.embeddings.drop end_idx
        document_index := rebuildIndex documents })

/-- Dot product of two vectors (`np.dot` on equal-length 1-D arrays). -/
def dot (v w : List ℚ) : ℚ :=
  (List.zipWith (· * ·) v w).sum

/-- `similarities = np.dot(self.embeddings, query_embedding)`. -/
def simsOf (db : VectorDatabase) (q : List ℚ) : List ℚ :=
  db.embeddings.map (fun row => dot row q)

/-- `similarities[i]` (lookups are always in range in the code paths under
study; out-of-range reads default to `0`). -/
def simAt (sims : List ℚ) (i : Nat) : ℚ :=
  sims.getD i 0

/-- Stable ascending insertion for `argsortAsc`: on ties the earlier original
index stays first (one legal `np.argsort` tie order). -/
def insertAscIdx (sims : List ℚ) (i : Nat) : List Nat → List Nat
  | [] => [i]
  | j :: js =>
    if simAt sims i ≤ simAt sims j then i :: j :: js else j :: insertAscIdx sims i js

/-- `np.argsort(similarities)`: the indices `0..n-1` sorted ascending by
similarity. -/
def argsortAsc (sims : List ℚ) : List Nat :=
  (List.range sims.length).foldr (insertAscIdx sims) []

/-- `top_indices = np.argsort(similarities)[::-1][:top_k]`. -/
def topIndices (db : VectorDatabase) (q : List ℚ) (top_k : Int) : List Nat :=
  pyTake top_k (argsortAsc (simsOf db q)).reverse

/-- A search-result record as built by `search_similar` (the
`chunk_metadata` sub-dict is flattened into the `start_pos`/`end_pos`/
`length`/`page_number` fields it copies). -/
structure SearchResult where
  document_id : String
  document_name : String
  chunk_id : Nat
  chunk_text : List Char
  similarity : ℚ
  start_pos : Nat
  end_pos : Nat
  length : Nat
  page_number : Option Nat
  deriving DecidableEq

/-- `if document_filter and doc['document_id'] != document_filter: skip` —
note Python truthiness: `None` and the empty string both disable the
filter. -/
def filterSkip : Option String → DocumentEntry → Bool
  | none, _ => false
  | some s, d => if s = "" then false else if d.document_id = s then false else true

/-- One result record for global row `cur + localIdx` of document `d`. -/
def mkSearchResult (d : DocumentEntry) (localIdx : Nat) (sim : ℚ) : SearchResult :=
  let c := d.chunks.getD localIdx default
  { document_id := d.document_id
    document_name := d.file_name
    chunk_id := c.chunk_id
    chunk_text := c.text
    similarity := sim
    start_pos := c.start_pos
    end_pos := c.end_pos
    length := c.length
    page_number := c.page_number }

/-- The inner `for chunk_idx in top_indices: if chunk_idx in
doc_chunk_indices: results.append(...)` loop for one document whose row span
starts at `cur`. -/
def docResults (d : DocumentEntry) (cur : Nat) (top : List Nat) (sims : List ℚ) :
    List SearchResult :=
  top.filterMap fun i =>
    if cur ≤ i ∧ i < cur + d.chunk_count then
      some (mkSearchResult d (i - cur) (simAt sims i))
    else none

/-- The outer `for doc in self.documents` loop of `search_similar`, carrying
`current_chunk_idx`. -/
def collectGo (fl : Option String) (top : List Nat) (sims : List ℚ) :
    List DocumentEntry → Nat → List SearchResult
  | [], _ => []
  | d :: ds, cur =>
    if filterSkip fl d then collectGo fl top sims ds (cur + d.chunk_count)
    else docResults d cur top sims ++ collectGo fl top sims ds (cur + d.chunk_count)

/-- Stable descending insertion modelling Python's stable
`results.sort(key=lambda x: x['similarity'], reverse=True)`. -/
def insertDesc (x : SearchResult) : List SearchResult → List SearchResult
  | [] => [x]
  | y :: ys => if y.similarity ≤ x.similarity then x :: y :: ys else y :: insertDesc x ys

def sortDesc (l : List SearchResult) : List SearchResult :=
  l.foldr insertDesc []

/-- `VectorDatabase.search_similar(query_embedding, top_k, document_filter)`. -/
def VectorDatabase.search_similar (db : VectorDatabase) (q : List ℚ) (top_k : Int)
    (document_filter : Option String) : List SearchResult :=
  if db.embeddings.length = 0 then []
  else
    pyTake top_k
      (sortDesc (collectGo document_filter (topIndices db q top_k) (simsOf db q)
        db.documents 0))

/-- State well-formedness maintained by the database operations: the
embedding matrix has exactly one row per stored chunk, every entry's
`chunk_count` equals its chunk-list length, ids are distinct (`uuid4`
freshness) and the id→position index is the rebuilt one. -/
def wellFormed (db : VectorDatabase) : Prop :=
  db.embeddings.length = (db.documents.map (·.chunk_count)).sum ∧
  (∀ d ∈ db.documents, d.chunk_count = d.chunks.length) ∧
  (db.documents.map (·.document_id)).Nodup ∧
  db.document_index = rebuildIndex db.documents

instance (db : VectorDatabase) : Decidable (wellFormed db) := by
  unfold wellFormed; infer_instance

/-- The row spans derived from the document list partition `[0, total_rows)`:
they start at `0`, are consecutive, each has length `chunk_count` (which
equals the chunk-list length), and they end at the matrix row count. -/
def spansPartition (db : VectorDatabase) : Prop :=
  docStart db 0 = 0 ∧
  docStart db db.documents.length = db.embeddings.length ∧
  ∀ p, (h : p < db.documents.length) →
    docStart db (p + 1) = docStart db p + (db.documents.get ⟨p, h⟩).chunk_count ∧
    (db.documents.get ⟨p, h⟩).chunk_count = (db.documents.get ⟨p, h⟩).chunks.length

/-! ## Operation sequences over the database -/

/-- An `add_document`/`remove_document` call. -/
inductive DBOp
  | add (document_data : DocumentData) (chunks : List Chunk)
      (embeddings : List (List ℚ)) (document_id now : String)
  | remove (document_id : String)

def applyOp (db : VectorDatabase) : DBOp → VectorDatabase
  | .add document_data chunks embeddings document_id now =>
    (db.add_document document_data chunks embeddings document_id now).2
  | .remove document_id => (db.remove_document document_id).2

def applyOps (db : VectorDatabase) : List DBOp → VectorDatabase
  | [] => db
  | op :: ops => applyOps (applyOp db op) ops

/-- Side conditions of a call: an add supplies equally many chunks and
embedding rows and a fresh `uuid4` id; removes are unconstrained. -/
def opOK (db : VectorDatabase) : DBOp → Prop
  | .add _ chunks embeddings document_id _ =>
    chunks.length = embeddings.length ∧
    document_id ∉ db.documents.map (·.document_id)
  | .remove _ => True

def opsOK (db : VectorDatabase) : List DBOp → Prop
  | [] => True
  | op :: ops => opOK db op ∧ opsOK (applyOp db op) ops

/-! ## Embedding manager (`src/Archive/backend_old/embedding_manager.py`) -/

/-- `_hash_text` (an md5 hex digest) modelled as an injective content key. -/
def hash_text (text : String) : String := text

/-- `_get_cached_embedding`: look the hash up in the cache. -/
def cacheLookup : List (String × List ℚ) → String → Option (List ℚ)
  | [], _ => none
  | (k, v) :: rest, t => if k = hash_text t then some v else cacheLookup rest t

/-- `_cache_embedding`: write the hash-keyed entry (overwrite wins). -/
def cacheInsert : List (String × List ℚ) → String → List ℚ → List (String × List ℚ)
  | [], k, v => [(k, v)]
  | (k', v') :: rest, k, v =>
    if k' = k then (k, v) :: rest else (k', v') :: cacheInsert rest k v

/-- The first pass of `generate_embeddings`: cached embeddings are appended
in input order, uncached texts are collected with their input indices. -/
def phase1 (cache : List (String × List ℚ)) :
    List String → Nat → List (List ℚ) × List String × List Nat
  | [], _ => ([], [], [])
  | t :: ts, i =>
    let r := phase1 cache ts (i + 1)
    match cacheLookup cache t with
    | some e => (e :: r.1, r.2.1, r.2.2)
    | none => (r.1, t :: r.2.1, i :: r.2.2)

/-- Outcome of a `generate_embeddings` call: the returned embeddings, the
cache state afterwards, and the batch of texts passed to the underlying
embedding function (`model.encode`) — empty when `encode` is not invoked. -/
structure GenResult where
  embeddings : List (List ℚ)
  cache : List (String × List ℚ)
  batch : List String
  deriving DecidableEq

/-- `EmbeddingManager.generate_embeddings(texts, use_cache=True)` with the
deterministic embedding function `embed` standing for `model.encode` applied
element-wise to the uncached batch. -/
def generate_embeddings (cache : List (String × List ℚ)) (texts : List String)
    (embed : String → List ℚ) : GenResult :=
  let r := phase1 cache texts 0
  let uncached_texts := r.2.1
  if uncached_texts = [] then ⟨r.1, cache, []⟩
  else
    let new_embeddings := uncached_texts.map embed
    let cache2 := (List.zip uncached_texts new_embeddings).foldl
      (fun c te => cacheInsert c (hash_text te.1) te.2) cache
    let out := (List.zip r.2.2 new_embeddings).foldl
      (fun l ie => pyInsertIdx l ie.1 ie.2) r.1
    ⟨out, cache2, uncached_texts⟩

/-! ## Concrete fixtures used by witnesses and counterexamples -/

/-- A chunk with local id `i` (one character of text). -/
def sampleChunk (i : Nat) : Chunk := ⟨i, ['a'], 0, 1, 1, none⟩

/-- A stored document entry with `n` chunks. -/
def sampleDoc (id name : String) (n : Nat) : DocumentEntry :=
  ⟨id, name, "", "", "", 0, 0, 0, n, "", (List.range n).map sampleChunk⟩

/-- A database state with the given documents and embedding rows and the
rebuilt index (the state `_load_database`/any mutation leaves behind). -/
def mkDB (docs : List DocumentEntry) (rows : List (List ℚ)) : VectorDatabase :=
  ⟨docs, rows, rebuildIndex docs⟩

def dbAB : VectorDatabase :=
  mkDB [sampleDoc "A" "a" 1, sampleDoc "B" "b" 1] [[1, 0], [0, 1]]

def dbTie : VectorDatabase :=
  mkDB [sampleDoc "A" "a" 2, sampleDoc "B" "b" 1] [[1, 0], [0, 1], [0, 1]]

def dbOne : VectorDatabase := mkDB [sampleDoc "A" "a" 1] [[1]]

def dbTwo : VectorDatabase := mkDB [sampleDoc "A" "a" 1] [[2, 0]]

/-! ## C4: chunk_text termination -/

theorem chunkLoop_abcd_step (f cid : Nat) :
    chunkLoop "abcd.xxxxxx".toList 4 2 [] (f + 1) 3 cid =
      match chunkLoop "abcd.xxxxxx".toList 4 2 [] f 3 (cid + 1) with
      | none => none
      | some rest => some (⟨cid, ['d', '.'], 3, 5, 2, none⟩ :: rest) := rfl

theorem chunkLoop_abcd_none : ∀ f cid, chunkLoop "abcd.xxxxxx".toList 4 2 [] f 3 cid = none := by
  intro f
  induction f with
  | zero => intro cid; rfl
  | succ f ih =>
    intro cid
    rw [chunkLoop_abcd_step, ih (cid + 1)]

/-- C4: the claim states that `chunk_text` terminates for every text whenever
`chunk_size > overlap ≥ 0` because a non-advancing window start is forced to
`end`.  This is false on the code: the guard only fires when `start ≤ 0`, so a
sentence-boundary cut that pulls `end` back to `start + overlap` repeats the
same positive `start` forever.  On `text = "abcd.xxxxxx"`, `chunk_size = 4`,
`overlap = 2` (which satisfy `chunk_size > overlap ≥ 0`) the loop reaches
`start = 3`, cuts `end` back to `5` at the `'.'` in position 4, and
recomputes `start = 5 - 2 = 3` forever: no amount of fuel makes the loop
terminate. -/
theorem chunk_text_diverges : ∀ fuel, chunk_text "abcd.xxxxxx".toList 4 2 fuel = none := by
  intro fuel
  cases fuel with
  | zero => rfl
  | succ f =>
    have h0 : chunk_text "abcd.xxxxxx".toList 4 2 (f + 1) =
        match chunkLoop "abcd.xxxxxx".toList 4 2 [] f 3 1 with
        | none => none
        | some rest => some (⟨0, ['a', 'b', 'c', 'd', '.'], 0, 5, 5, none⟩ :: rest) := rfl
    rw [h0, chunkLoop_abcd_none f 1]

/-! ## C3: add_document does not validate the chunk/embedding count -/

/-- C3: the claim states that `add_document` fails whenever
`len(chunks) != len(embeddings)` with no state mutated.  The code performs no
such check: adding one chunk with two embedding rows succeeds, mutates the
state, and leaves it violating the row-span invariant (`chunk_count = 1` but
two new matrix rows). -/
theorem add_document_no_length_check :
    (emptyDB.add_document ⟨"f", "p", "h", "t", 1, 2, 3⟩ [sampleChunk 0]
        [[1, 0], [0, 1]] "id0" "t0").1 = "id0" ∧
    (emptyDB.add_document ⟨"f", "p", "h", "t", 1, 2, 3⟩ [sampleChunk 0]
        [[1, 0], [0, 1]] "id0" "t0").2.documents.length = 1 ∧
    ((emptyDB.add_document ⟨"f", "p", "h", "t", 1, 2, 3⟩ [sampleChunk 0]
        [[1, 0], [0, 1]] "id0" "t0").2.documents.getD 0 default).chunk_count = 1 ∧
    (emptyDB.add_document ⟨"f", "p", "h", "t", 1, 2, 3⟩ [sampleChunk 0]
        [[1, 0], [0, 1]] "id0" "t0").2.embeddings.length = 2 ∧
    ¬ wellFormed (emptyDB.add_document ⟨"f", "p", "h", "t", 1, 2, 3⟩ [sampleChunk 0]
        [[1, 0], [0, 1]] "id0" "t0").2 := by
  decide

/-! ## Counterexamples: C1, C5, C7, C9 -/

/-- C1 counterexample: the store `dbAB` is well-formed, document `"B"` owns
one chunk (`≥ top_k = 1`), yet `search` with `document_filter = "B"` returns
no result at all: the filter is applied after the global top-`k` selection
(row 0 of document `"A"` is the sole global top-1 row), not before it. -/
theorem search_filter_is_post_filter :
    wellFormed dbAB ∧ (dbAB.documents.getD 1 default).chunk_count = 1 ∧
    dbAB.search_similar [1, 0] 1 (some "B") = [] := by
  refine ⟨by decide, by decide, ?_⟩
  norm_num [dbAB, mkDB, sampleDoc, sampleChunk, VectorDatabase.search_similar, simsOf, dot,
    topIndices, argsortAsc, insertAscIdx, simAt, pyTake, collectGo, docResults, mkSearchResult,
    sortDesc, insertDesc, filterSkip, rebuildIndex, rebuildGo, indexSet, List.range_succ,
    List.filterMap_cons, List.filterMap_nil]
  decide

/-- C5 counterexample: with the stored row `[2, 0]` and query `[2, 0]` (both
non-zero), the returned score is the raw dot product `4`, which lies outside
`[-1, 1]`; `search_similar` applies no L2 normalization. -/
theorem search_score_not_cosine :
    (dbTwo.search_similar [2, 0] 1 none).map (·.similarity) = [4] ∧ ¬ ((4 : ℚ) ≤ 1) := by
  refine ⟨?_, by norm_num⟩
  norm_num [dbTwo, mkDB, sampleDoc, sampleChunk, VectorDatabase.search_similar, simsOf, dot,
    topIndices, argsortAsc, insertAscIdx, simAt, pyTake, collectGo, docResults, mkSearchResult,
    sortDesc, insertDesc, filterSkip, rebuildIndex, rebuildGo, indexSet, List.range_succ,
    List.filterMap_cons, List.filterMap_nil]

/-- C7 counterexample: two candidates tie at score `1`, and the returned
order is chunk `1` of document `"A"` before chunk `0` of document `"B"` — the
tie is broken by document position in the store, not by lowest `chunk_id`. -/
theorem search_tie_not_by_chunk_id :
    (dbTie.search_similar [0, 1] 2 none).map
        (fun r => (r.document_id, r.chunk_id, r.similarity)) =
      [("A", 1, 1), ("B", 0, 1)] := by
  norm_num [dbTie, mkDB, sampleDoc, sampleChunk, VectorDatabase.search_similar, simsOf, dot,
    topIndices, argsortAsc, insertAscIdx, simAt, pyTake, collectGo, docResults, mkSearchResult,
    sortDesc, insertDesc, filterSkip, rebuildIndex, rebuildGo, indexSet, List.range_succ,
    List.filterMap_cons, List.filterMap_nil]
  simp
  norm_num [insertDesc]

/-- C9 counterexample: the empty string equals no stored document id, yet
`document_filter = ""` is falsy in Python, so the filter is disabled and the
search returns the unfiltered (non-empty) results instead of `[]`. -/
theorem search_empty_filter_disabled :
    ("" ∉ dbOne.documents.map (·.document_id)) ∧
    dbOne.search_similar [1] 1 (some "") = dbOne.search_similar [1] 1 none ∧
    dbOne.search_similar [1] 1 (some "") ≠ [] := by
  refine ⟨by decide, ?_, ?_⟩ <;>
    norm_num [dbOne, mkDB, sampleDoc, sampleChunk, VectorDatabase.search_similar, simsOf, dot,
      topIndices, argsortAsc, insertAscIdx, simAt, pyTake, collectGo, docResults, mkSearchResult,
      sortDesc, insertDesc, filterSkip, rebuildIndex, rebuildGo, indexSet, List.range_succ,
      List.filterMap_cons, List.filterMap_nil]

/-! ## C9 (amended): a non-empty unknown filter yields the empty list -/

theorem pyTake_nil (k : Int) : pyTake k ([] : List α) = [] := by
  unfold pyTake; split <;> simp

theorem collectGo_all_skip (s : String) (top : List Nat) (sims : List ℚ)
    (ds : List DocumentEntry) (cur : Nat) (hs : s ≠ "")
    (h : ∀ d ∈ ds, d.document_id ≠ s) :
    collectGo (some s) top sims ds cur = [] := by
  induction ds generalizing cur with
  | nil => rfl
  | cons d ds ih =>
    have hd : d.document_id ≠ s := h d (List.mem_cons_self d ds)
    have hsk : filterSkip (some s) d = true := by
      simp [filterSkip, hs, hd]
    simp only [collectGo, hsk, if_true]
    exact ih _ (fun d' hd' => h d' (List.mem_cons_of_mem d hd'))

/-- C9 (amended): for every store state, query embedding and `top_k`, a
**non-empty** `document_filter` string that equals no stored document's id
makes `search_similar` return the empty list rather than raise; the search
reads but never mutates the store (it is a pure function of the state in
this model).  The original claim fails only for the empty-string filter,
which Python truthiness silently treats as "no filter". -/
theorem search_unknown_filter_empty (db : VectorDatabase) (q : List ℚ) (top_k : Int)
    (s : String) (hs : s ≠ "") (hmem : s ∉ db.documents.map (·.document_id)) :
    db.search_similar q top_k (some s) = [] := by
  unfold VectorDatabase.search_similar
  split
  · rfl
  · rw [collectGo_all_skip s _ _ _ _ hs]
    · rw [show sortDesc [] = [] from rfl, pyTake_nil]
    · intro d hd heq
      exact hmem (heq ▸ List.mem_map_of_mem (·.document_id) hd)

theorem search_unknown_filter_empty_witness :
    ("Z" : String) ≠ "" ∧ ("Z" ∉ dbOne.documents.map (·.document_id)) ∧
    dbOne.search_similar [1] 1 (some "Z") = [] :=
  ⟨by decide, by decide,
    search_unknown_filter_empty dbOne [1] 1 "Z" (by decide) (by decide)⟩

/-! ## C10: fields of emitted chunks -/

theorem chunkLoop_fields (text : List Char) (cs ov : Nat) (markers : List (Nat × Nat)) :
    ∀ (fuel start cid : Nat) (l : List Chunk),
      chunkLoop text cs ov markers fuel start cid = some l →
      ∀ c ∈ l, c.text = stripChars (pySlice text c.start_pos c.end_pos) ∧
        c.text ≠ [] ∧ c.length = c.text.length := by
  intro fuel
  induction fuel with
  | zero =>
    intro start cid l h
    exact absurd h (by simp [chunkLoop])
  | succ f ih =>
    intro start cid l h
    simp only [chunkLoop] at h
    split at h
    · split at h
      · exact ih _ _ _ h
      · rename_i hct
        cases hrec : chunkLoop text cs ov markers f
            (nextStart (chunkEnd text cs start) ov) (cid + 1) with
        | none => rw [hrec] at h; exact absurd h (by simp)
        | some rest =>
          rw [hrec] at h
          simp only [] at h
          injection h with h'
          intro c hc
          rw [← h'] at hc
          rcases List.mem_cons.mp hc with hceq | hcrest
          · subst hceq
            exact ⟨rfl, hct, rfl⟩
          · exact ih _ _ _ hrec c hcrest
    · injection h with h'
      rw [← h']
      intro c hc
      exact absurd hc (List.not_mem_nil c)

/-- C10: every chunk emitted by `chunk_text` has `text` equal to the slice
`text[start_pos:end_pos]` (clamped at the text's end) with leading and
trailing whitespace stripped and non-empty, and `length` equal to the length
of that stripped text; the trailing conjuncts exhibit a final chunk whose
`end_pos = 5` exceeds the 2-character text's length, the slice being
truncated. -/
theorem chunk_text_fields (text : List Char) (cs ov fuel : Nat) (l : List Chunk)
    (h : chunk_text text cs ov fuel = some l) :
    (∀ c ∈ l, c.text = stripChars (pySlice text c.start_pos c.end_pos) ∧
      c.text ≠ [] ∧ c.length = c.text.length) ∧
    chunk_text "ab".toList 5 0 2 = some [⟨0, ['a', 'b'], 0, 5, 2, none⟩] ∧
    ("ab".toList).length < 5 := by
  refine ⟨?_, rfl, by decide⟩
  unfold chunk_text at h
  split at h
  · injection h with h'
    rw [← h']
    intro c hc
    exact absurd hc (List.not_mem_nil c)
  · exact chunkLoop_fields text cs ov _ fuel 0 0 l h

theorem chunk_text_fields_witness :
    chunk_text "ab".toList 5 0 2 = some [⟨0, ['a', 'b'], 0, 5, 2, none⟩] ∧
    ∀ c ∈ [(⟨0, ['a', 'b'], 0, 5, 2, none⟩ : Chunk)],
      c.text = stripChars (pySlice "ab".toList c.start_pos c.end_pos) ∧
      c.text ≠ [] ∧ c.length = c.text.length :=
  ⟨rfl, (chunk_text_fields "ab".toList 5 0 2 _ rfl).1⟩

/-! ## Sorting and selection lemmas -/

theorem insertDesc_perm (x : SearchResult) (l : List SearchResult) :
    List.Perm (insertDesc x l) (x :: l) := by
  induction l with
  | nil => exact List.Perm.refl _
  | cons y ys ih =>
    unfold insertDesc
    split
    · exact List.Perm.refl _
    · exact (List.Perm.cons y ih).trans (List.Perm.swap x y ys)

theorem sortDesc_perm (l : List SearchResult) : List.Perm (sortDesc l) l := by
  induction l with
  | nil => exact List.Perm.refl _
  | cons x xs ih => exact (insertDesc_perm x (sortDesc xs)).trans (List.Perm.cons x ih)

theorem length_sortDesc (l : List SearchResult) : (sortDesc l).length = l.length :=
  (sortDesc_perm l).length_eq

theorem insertDesc_sorted (x : SearchResult) (l : List SearchResult)
    (hl : l.Pairwise (fun a b => b.similarity ≤ a.similarity)) :
    (insertDesc x l).Pairwise (fun a b => b.similarity ≤ a.similarity) := by
  induction l with
  | nil => simp [insertDesc]
  | cons y ys ih =>
    rw [List.pairwise_cons] at hl
    unfold insertDesc
    split
    · rename_i hyx
      refine List.Pairwise.cons ?_ (List.Pairwise.cons hl.1 hl.2)
      intro z hz
      rcases List.mem_cons.mp hz with rfl | hz'
      · exact hyx
      · exact (hl.1 z hz').trans hyx
    · rename_i hyx
      refine List.Pairwise.cons ?_ (ih hl.2)
      intro z hz
      rcases List.mem_cons.mp ((insertDesc_perm x ys).mem_iff.mp hz) with rfl | hz'
      · exact le_of_lt (lt_of_not_le hyx)
      · exact hl.1 z hz'

theorem sortDesc_sorted (l : List SearchResult) :
    (sortDesc l).Pairwise (fun a b => b.similarity ≤ a.similarity) := by
  induction l with
  | nil => simp [sortDesc]
  | cons x xs ih => exact insertDesc_sorted x (sortDesc xs) ih

theorem insertAscIdx_perm (sims : List ℚ) (i : Nat) (l : List Nat) :
    List.Perm (insertAscIdx sims i l) (i :: l) := by
  induction l with
  | nil => exact List.Perm.refl _
  | cons j js ih =>
    unfold insertAscIdx
    split
    · exact List.Perm.refl _
    · exact (List.Perm.cons j ih).trans (List.Perm.swap i j js)

theorem argsortAsc_perm (sims : List ℚ) : List.Perm (argsortAsc sims) (List.range sims.length) := by
  have key : ∀ l : List Nat, List.Perm (l.foldr (insertAscIdx sims) []) l := by
    intro l
    induction l with
    | nil => exact List.Perm.refl _
    | cons j js ih => exact (insertAscIdx_perm sims j _).trans (List.Perm.cons j ih)
  exact key _

theorem mem_argsortAsc {sims : List ℚ} {i : Nat} :
    i ∈ argsortAsc sims ↔ i < sims.length := by
  rw [(argsortAsc_perm sims).mem_iff, List.mem_range]

theorem argsortAsc_nodup (sims : List ℚ) : (argsortAsc sims).Nodup :=
  (argsortAsc_perm sims).nodup_iff.mpr (List.nodup_range _)

theorem length_argsortAsc (sims : List ℚ) : (argsortAsc sims).length = sims.length :=
  (argsortAsc_perm sims).length_eq.trans (List.length_range _)

theorem insertAscIdx_sorted (sims : List ℚ) (i : Nat) (l : List Nat)
    (hl : l.Pairwise (fun a b => simAt sims a ≤ simAt sims b)) :
    (insertAscIdx sims i l).Pairwise (fun a b => simAt sims a ≤ simAt sims b) := by
  induction l with
  | nil => simp [insertAscIdx]
  | cons j js ih =>
    rw [List.pairwise_cons] at hl
    unfold insertAscIdx
    split
    · rename_i hij
      refine List.Pairwise.cons ?_ (List.Pairwise.cons hl.1 hl.2)
      intro z hz
      rcases List.mem_cons.mp hz with rfl | hz'
      · exact hij
      · exact hij.trans (hl.1 z hz')
    · rename_i hij
      refine List.Pairwise.cons ?_ (ih hl.2)
      intro z hz
      rcases List.mem_cons.mp ((insertAscIdx_perm sims i js).mem_iff.mp hz) with rfl | hz'
      · exact le_of_lt (lt_of_not_le hij)
      · exact hl.1 z hz'

theorem argsortAsc_sorted (sims : List ℚ) :
    (argsortAsc sims).Pairwise (fun a b => simAt sims a ≤ simAt sims b) := by
  have key : ∀ l : List Nat,
      (l.foldr (insertAscIdx sims) []).Pairwise (fun a b => simAt sims a ≤ simAt sims b) := by
    intro l
    induction l with
    | nil => simp
    | cons j js ih => exact insertAscIdx_sorted sims j _ ih
  exact key _

theorem pyTake_sublist (k : Int) (l : List α) : List.Sublist (pyTake k l) l := by
  unfold pyTake
  split <;> exact List.take_sublist _ _

theorem length_pyTake (k : Int) (hk : 0 ≤ k) (l : List α) :
    (pyTake k l).length = min k.toNat l.length := by
  unfold pyTake
  rw [if_pos hk, List.length_take]

theorem topIndices_sublist (db : VectorDatabase) (q : List ℚ) (k : Int) :
    List.Sublist (topIndices db q k) (argsortAsc (simsOf db q)).reverse :=
  pyTake_sublist _ _

theorem mem_topIndices {db : VectorDatabase} {q : List ℚ} {k : Int} {i : Nat}
    (h : i ∈ topIndices db q k) : i < db.embeddings.length := by
  have h2 := (topIndices_sublist db q k).subset h
  rw [List.mem_reverse] at h2
  have h3 := mem_argsortAsc.mp h2
  simpa [simsOf] using h3

theorem topIndices_nodup (db : VectorDatabase) (q : List ℚ) (k : Int) :
    (topIndices db q k).Nodup :=
  (List.nodup_reverse.mpr (argsortAsc_nodup (simsOf db q))).sublist (topIndices_sublist db q k)

theorem length_topIndices (db : VectorDatabase) (q : List ℚ) (k : Int) (hk : 0 ≤ k) :
    (topIndices db q k).length = min k.toNat db.embeddings.length := by
  unfold topIndices
  rw [length_pyTake k hk, List.length_reverse, length_argsortAsc]
  simp [simsOf]

/-! ## Counting results per document span -/

theorem length_docResults (d : DocumentEntry) (cur : Nat) (top : List Nat) (sims : List ℚ) :
    (docResults d cur top sims).length =
      top.countP (fun i => decide (cur ≤ i ∧ i < cur + d.chunk_count)) := by
  unfold docResults
  induction top with
  | nil => rfl
  | cons j js ih =>
    rw [List.filterMap_cons, List.countP_cons]
    by_cases hj : cur ≤ j ∧ j < cur + d.chunk_count
    · rw [if_pos hj, List.length_cons, ih]
      simp [hj]
    · rw [if_neg hj, ih]
      simp [hj]

theorem countP_Ico_split (top : List Nat) (a b c : Nat) (hab : a ≤ b) (hbc : b ≤ c) :
    top.countP (fun i => decide (a ≤ i ∧ i < b)) +
      top.countP (fun i => decide (b ≤ i ∧ i < c)) =
      top.countP (fun i => decide (a ≤ i ∧ i < c)) := by
  induction top with
  | nil => rfl
  | cons j js ih =>
    by_cases h1 : a ≤ j ∧ j < b <;> by_cases h2 : b ≤ j ∧ j < c
    · omega
    · have h3 : a ≤ j ∧ j < c := ⟨h1.1, by omega⟩
      rw [List.countP_cons_of_pos _ _ (by simp [h1]),
        List.countP_cons_of_neg _ _ (by simp [h2]),
        List.countP_cons_of_pos _ _ (by simp [h3])]
      omega
    · have h3 : a ≤ j ∧ j < c := ⟨by omega, h2.2⟩
      rw [List.countP_cons_of_neg _ _ (by simp [h1]),
        List.countP_cons_of_pos _ _ (by simp [h2]),
        List.countP_cons_of_pos _ _ (by simp [h3])]
      omega
    · have h3 : ¬ (a ≤ j ∧ j < c) := by omega
      rw [List.countP_cons_of_neg _ _ (by simp [h1]),
        List.countP_cons_of_neg _ _ (by simp [h2]),
        List.countP_cons_of_neg _ _ (by
          simp only [decide_eq_true_eq]
          exact h3)]
      omega

theorem collectGo_none_length (top : List Nat) (sims : List ℚ) :
    ∀ (ds : List DocumentEntry) (cur : Nat),
      (collectGo none top sims ds cur).length =
        top.countP (fun i => decide (cur ≤ i ∧ i < cur + (ds.map (·.chunk_count)).sum)) := by
  intro ds
  induction ds with
  | nil =>
    intro cur
    simp only [collectGo, List.length_nil, List.map_nil, List.sum_nil, Nat.add_zero]
    symm
    rw [List.countP_eq_zero]
    intro i _
    simp only [decide_eq_true_eq]
    omega
  | cons d ds ih =>
    intro cur
    have hsk : filterSkip none d = false := rfl
    simp only [collectGo, hsk, Bool.false_eq_true, if_false, List.length_append]
    rw [length_docResults, ih (cur + d.chunk_count),
      countP_Ico_split top cur (cur + d.chunk_count)
        (cur + d.chunk_count + (ds.map (·.chunk_count)).sum)
        (Nat.le_add_right _ _) (Nat.le_add_right _ _)]
    simp only [List.map_cons, List.sum_cons]
    congr 1
    funext i
    congr 1
    rw [eq_iff_iff]
    omega

/-! ## C6: top-k count and ordering of unfiltered search -/

/-- C6: for every well-formed store holding `N` embedding rows (one per
chunk) and every query, `search_similar` with `top_k = k ≥ 0` and no
document filter returns exactly `min(k, N)` results, ordered by
non-increasing similarity; in particular an empty store yields `[]`, not an
error. -/
theorem search_unfiltered_count_sorted (db : VectorDatabase) (q : List ℚ) (k : Int)
    (hwf : wellFormed db) (hk : 0 ≤ k) :
    (db.search_similar q k none).length = min k.toNat db.embeddings.length ∧
    (db.search_similar q k none).Pairwise (fun a b => b.similarity ≤ a.similarity) := by
  unfold VectorDatabase.search_similar
  split
  · rename_i hemp
    constructor
    · simp [hemp]
    · simp
  · rename_i hne
    have hcoll : (collectGo none (topIndices db q k) (simsOf db q) db.documents 0).length
        = (topIndices db q k).length := by
      rw [collectGo_none_length]
      rw [List.countP_eq_length]
      intro i hi
      have hilt := mem_topIndices hi
      have htot : (db.documents.map (·.chunk_count)).sum = db.embeddings.length := hwf.1.symm
      simp only [Nat.zero_add, htot]
      simp
      omega
    constructor
    · rw [length_pyTake k hk, length_sortDesc, hcoll, length_topIndices db q k hk]
      rw [← Nat.min_assoc, Nat.min_self]
    · exact List.Pairwise.sublist (pyTake_sublist _ _) (sortDesc_sorted _)

theorem search_unfiltered_count_sorted_witness :
    wellFormed dbTie ∧ (0 : Int) ≤ 2 ∧
    (dbTie.search_similar [0, 1] 2 none).length = min (Int.toNat 2) dbTie.embeddings.length ∧
    (dbTie.search_similar [0, 1] 2 none).Pairwise (fun a b => b.similarity ≤ a.similarity) :=
  ⟨by decide, by decide,
    search_unfiltered_count_sorted dbTie [0, 1] 2 (by decide) (by decide)⟩

/-! ## C1: the document filter is a post-filter over the global top-k -/

theorem document_id_ne (docs : List DocumentEntry)
    (hnd : (docs.map (·.document_id)).Nodup) {i j : Nat}
    (hi : i < docs.length) (hj : j < docs.length) (hij : i ≠ j) :
    (docs.get ⟨i, hi⟩).document_id ≠ (docs.get ⟨j, hj⟩).document_id := by
  intro heq
  apply hij
  have hmi : i < (docs.map (·.document_id)).length := by simpa using hi
  have hmj : j < (docs.map (·.document_id)).length := by simpa using hj
  have h2 : (docs.map (·.document_id)).get ⟨i, hmi⟩ =
      (docs.map (·.document_id)).get ⟨j, hmj⟩ := by
    simpa using heq
  exact congrArg Fin.val ((List.Nodup.get_inj_iff hnd).mp h2)

theorem collectGo_decomp (s : String) (top : List Nat) (sims : List ℚ) (hs : s ≠ "") :
    ∀ (pre : List DocumentEntry) (dT : DocumentEntry) (post : List DocumentEntry)
      (cur : Nat), dT.document_id = s → (∀ d ∈ pre, d.document_id ≠ s) →
      collectGo (some s) top sims (pre ++ dT :: post) cur =
        docResults dT (cur + (pre.map (·.chunk_count)).sum) top sims ++
          collectGo (some s) top sims post
            (cur + (pre.map (·.chunk_count)).sum + dT.chunk_count) := by
  intro pre
  induction pre with
  | nil =>
    intro dT post cur hdT _
    have hsk : filterSkip (some s) dT = false := by simp [filterSkip, hs, hdT]
    simp only [List.nil_append, collectGo, hsk, Bool.false_eq_true, if_false,
      List.map_nil, List.sum_nil, Nat.add_zero]
  | cons d pre ih =>
    intro dT post cur hdT hpre
    have hd : d.document_id ≠ s := hpre d (List.mem_cons_self d pre)
    have hsk : filterSkip (some s) d = true := by simp [filterSkip, hs, hd]
    simp only [List.cons_append, collectGo, hsk, if_true, List.append_eq]
    rw [ih dT post (cur + d.chunk_count) hdT
      (fun d' h' => hpre d' (List.mem_cons_of_mem d h'))]
    have ha : cur + d.chunk_count + (pre.map (·.chunk_count)).sum =
        cur + ((d :: pre).map (·.chunk_count)).sum := by
      simp only [List.map_cons, List.sum_cons]
      omega
    rw [ha]

theorem mem_docResults {d : DocumentEntry} {cur : Nat} {top : List Nat} {sims : List ℚ}
    {r : SearchResult} (h : r ∈ docResults d cur top sims) :
    r.document_id = d.document_id ∧ ∃ i ∈ top, (cur ≤ i ∧ i < cur + d.chunk_count) ∧
      r = mkSearchResult d (i - cur) (simAt sims i) := by
  unfold docResults at h
  rcases List.mem_filterMap.mp h with ⟨i, hi, hif⟩
  by_cases hc : cur ≤ i ∧ i < cur + d.chunk_count
  · rw [if_pos hc] at hif
    injection hif with hr
    refine ⟨by rw [← hr]; rfl, i, hi, hc, hr.symm⟩
  · rw [if_neg hc] at hif
    exact absurd hif (by simp)

/-- C1 (amended): `document_filter` restricts the *output*, not the candidate
pool: with a well-formed store, `top_k = k ≥ 0`, and a non-empty filter equal
to the id of the document at position `p`, every returned result belongs to
that document, and the number of results equals the number of **global**
top-`k` row indices that happen to fall inside that document's row span —
which can be fewer than `k` even when the document owns at least `k` chunks
(a post-filter, not the claimed pre-filter). -/
theorem search_filtered_span (db : VectorDatabase) (q : List ℚ) (k : Int)
    (hwf : wellFormed db) (hk : 0 ≤ k) (p : Nat) (hp : p < db.documents.length)
    (s : String) (hs : s ≠ "") (hid : (db.documents.get ⟨p, hp⟩).document_id = s) :
    (∀ r ∈ db.search_similar q k (some s), r.document_id = s) ∧
    (db.search_similar q k (some s)).length =
      (topIndices db q k).countP
        (fun i => decide (docStart db p ≤ i ∧
          i < docStart db p + (db.documents.get ⟨p, hp⟩).chunk_count)) := by
  have hnd := hwf.2.2.1
  have hpre : ∀ d ∈ db.documents.take p, d.document_id ≠ s := by
    intro d hd
    rcases List.mem_iff_get.mp hd with ⟨⟨n, hn⟩, hdn⟩
    have hnp : n < p := by
      have := hn
      rw [List.length_take] at this
      omega
    have hnd2 : n < db.documents.length := Nat.lt_of_lt_of_le hnp (Nat.le_of_lt hp)
    have hde : d = db.documents.get ⟨n, hnd2⟩ := by
      rw [← hdn]
      simp [List.get_eq_getElem, List.getElem_take]
    rw [hde, ← hid]
    exact document_id_ne db.documents hnd hnd2 hp (Nat.ne_of_lt hnp)
  have hpost : ∀ d ∈ db.documents.drop (p + 1), d.document_id ≠ s := by
    intro d hd
    rcases List.mem_iff_get.mp hd with ⟨⟨n, hn⟩, hdn⟩
    have hn2 : n < db.documents.length - (p + 1) := by
      have := hn
      rw [List.length_drop] at this
      omega
    have hnd2 : p + 1 + n < db.documents.length := by omega
    have hde : d = db.documents.get ⟨p + 1 + n, hnd2⟩ := by
      rw [← hdn]
      simp [List.get_eq_getElem, List.getElem_drop]
    rw [hde, ← hid]
    exact document_id_ne db.documents hnd hnd2 hp (by omega)
  have hdocs : db.documents = db.documents.take p ++
      db.documents.get ⟨p, hp⟩ :: db.documents.drop (p + 1) := by
    conv_lhs => rw [← List.take_append_drop p db.documents]
    rw [List.drop_eq_get_cons hp]
  unfold VectorDatabase.search_similar
  split
  · rename_i hemp
    have hrows : db.embeddings = [] := List.length_eq_zero.mp hemp
    have htop : topIndices db q k = [] := by
      simp [topIndices, simsOf, hrows, argsortAsc, pyTake_nil]
    constructor
    · intro r hr
      exact absurd hr (List.not_mem_nil r)
    · rw [htop]
      rfl
  · have hrw : collectGo (some s) (topIndices db q k) (simsOf db q) db.documents 0 =
        docResults (db.documents.get ⟨p, hp⟩) (docStart db p)
          (topIndices db q k) (simsOf db q) := by
      conv_lhs => rw [hdocs]
      rw [collectGo_decomp s _ _ hs _ _ _ 0 hid hpre,
        collectGo_all_skip s _ _ _ _ hs hpost, List.append_nil]
      simp only [Nat.zero_add]
      rfl
    rw [hrw]
    constructor
    · intro r hr
      have hr1 := (pyTake_sublist _ _).subset hr
      have hr2 := (sortDesc_perm _).mem_iff.mp hr1
      rw [(mem_docResults hr2).1, hid]
    · rw [length_pyTake k hk, length_sortDesc, length_docResults]
      apply Nat.min_eq_right
      refine le_trans (List.countP_le_length _) ?_
      rw [length_topIndices db q k hk]
      exact Nat.min_le_left _ _

theorem search_filtered_span_witness :
    (∀ r ∈ dbAB.search_similar [1, 0] 1 (some "B"), r.document_id = "B") ∧
    (dbAB.search_similar [1, 0] 1 (some "B")).length =
      (topIndices dbAB [1, 0] 1).countP
        (fun i => decide (docStart dbAB 1 ≤ i ∧
          i < docStart dbAB 1 + (dbAB.documents.get ⟨1, by decide⟩).chunk_count)) :=
  search_filtered_span dbAB [1, 0] 1 (by decide) (by decide) 1 (by decide) "B"
    (by decide) (by decide)

/-! ## C7: tie order is the stable emission order, not chunk_id -/

theorem insertDesc_filter_eq (x : SearchResult) (l : List SearchResult) (s : ℚ)
    (hx : x.similarity = s) :
    (insertDesc x l).filter (fun r => decide (r.similarity = s)) =
      x :: l.filter (fun r => decide (r.similarity = s)) := by
  induction l with
  | nil => simp [insertDesc, hx]
  | cons y ys ih =>
    unfold insertDesc
    split
    · rw [List.filter_cons_of_pos (by simp [hx])]
    · rename_i hyx
      have hy : ¬ (y.similarity = s) := fun h => hyx (le_of_eq (h.trans hx.symm))
      rw [List.filter_cons_of_neg (by simp [hy]), ih,
        List.filter_cons_of_neg (by simp [hy])]

theorem insertDesc_filter_ne (x : SearchResult) (l : List SearchResult) (s : ℚ)
    (hx : ¬ (x.similarity = s)) :
    (insertDesc x l).filter (fun r => decide (r.similarity = s)) =
      l.filter (fun r => decide (r.similarity = s)) := by
  induction l with
  | nil => simp [insertDesc, hx]
  | cons y ys ih =>
    unfold insertDesc
    split
    · rw [List.filter_cons_of_neg (by simp [hx])]
    · by_cases hy : y.similarity = s
      · rw [List.filter_cons_of_pos (by simp [hy]), ih,
          List.filter_cons_of_pos (by simp [hy])]
      · rw [List.filter_cons_of_neg (by simp [hy]), ih,
          List.filter_cons_of_neg (by simp [hy])]

theorem sortDesc_filter (l : List SearchResult) (s : ℚ) :
    (sortDesc l).filter (fun r => decide (r.similarity = s)) =
      l.filter (fun r => decide (r.similarity = s)) := by
  induction l with
  | nil => rfl
  | cons x xs ih =>
    by_cases hx : x.similarity = s
    · rw [show sortDesc (x :: xs) = insertDesc x (sortDesc xs) from rfl,
        insertDesc_filter_eq x _ s hx, ih, List.filter_cons_of_pos (by simp [hx])]
    · rw [show sortDesc (x :: xs) = insertDesc x (sortDesc xs) from rfl,
        insertDesc_filter_ne x _ s hx, ih, List.filter_cons_of_neg (by simp [hx])]

theorem pyTake_of_le_length (k : Int) (l : List α) (hk : 0 ≤ k)
    (hlen : l.length ≤ k.toNat) : pyTake k l = l := by
  unfold pyTake
  rw [if_pos hk]
  exact List.take_of_length_le hlen

/-- C7 (amended): the sort of `search_similar` is stable on its emission
order, and ties carry no `chunk_id`/`document_id` key at all: whenever the
result list is not truncated by `top_k` (its pre-sort length is at most
`k ≥ 0`), the results of any given score `s` appear in exactly the order the
result-building loop emitted them — documents in store order, and the
top-index scan order within a document.  For a fixed store, query and
`top_k` the output is a deterministic function of the state (given the
modelled `np.argsort` tie order). -/
theorem search_tie_order_stable (db : VectorDatabase) (q : List ℚ) (k : Int)
    (fl : Option String) (hk : 0 ≤ k)
    (hlen : (collectGo fl (topIndices db q k) (simsOf db q) db.documents 0).length
      ≤ k.toNat) :
    ∀ s : ℚ, (db.search_similar q k fl).filter (fun r => decide (r.similarity = s)) =
      (collectGo fl (topIndices db q k) (simsOf db q) db.documents 0).filter
        (fun r => decide (r.similarity = s)) := by
  intro s
  unfold VectorDatabase.search_similar
  split
  · rename_i hemp
    have hrows : db.embeddings = [] := List.length_eq_zero.mp hemp
    have htop : topIndices db q k = [] := by
      simp [topIndices, simsOf, hrows, argsortAsc, pyTake_nil]
    have hcoll : ∀ (ds : List DocumentEntry) (cur : Nat),
        collectGo fl ([] : List Nat) (simsOf db q) ds cur = [] := by
      intro ds
      induction ds with
      | nil => intro cur; rfl
      | cons d ds ih =>
        intro cur
        unfold collectGo
        split
        · exact ih _
        · rw [show docResults d cur [] (simsOf db q) = [] from rfl, List.nil_append]
          exact ih _
    rw [htop, hcoll db.documents 0]
  · rw [pyTake_of_le_length k _ hk (by rw [length_sortDesc]; exact hlen)]
    exact sortDesc_filter _ s

theorem search_tie_order_stable_witness :
    ((0 : Int) ≤ 2) ∧
    ((collectGo none (topIndices dbTie [0, 1] 2) (simsOf dbTie [0, 1])
      dbTie.documents 0).length ≤ (2 : Int).toNat) ∧
    ∀ s : ℚ, (dbTie.search_similar [0, 1] 2 none).filter
        (fun r => decide (r.similarity = s)) =
      (collectGo none (topIndices dbTie [0, 1] 2) (simsOf dbTie [0, 1])
        dbTie.documents 0).filter (fun r => decide (r.similarity = s)) := by
  have hb : (collectGo none (topIndices dbTie [0, 1] 2) (simsOf dbTie [0, 1])
      dbTie.documents 0).length ≤ (2 : Int).toNat := by
    norm_num [dbTie, mkDB, sampleDoc, sampleChunk, simsOf, dot,
      topIndices, argsortAsc, insertAscIdx, simAt, pyTake, collectGo, docResults,
      mkSearchResult, filterSkip, List.range_succ, List.filterMap_cons, List.filterMap_nil]
    simp
  exact ⟨by norm_num, hb, search_tie_order_stable dbTie [0, 1] 2 none (by norm_num) hb⟩

/-! ## C5: scores are raw dot products -/

theorem dot_nil_right (v : List ℚ) : dot v [] = 0 := by
  simp [dot]

theorem dot_cons (a b : ℚ) (v w : List ℚ) : dot (a :: v) (b :: w) = a * b + dot v w := by
  simp [dot]

theorem dot_self_nonneg (v : List ℚ) : 0 ≤ dot v v := by
  induction v with
  | nil => simp [dot]
  | cons a v ih =>
    rw [dot_cons]
    have := mul_self_nonneg a
    linarith

theorem dot_sq_le (v : List ℚ) : ∀ w : List ℚ, (dot v w) ^ 2 ≤ dot v v * dot w w := by
  induction v with
  | nil =>
    intro w
    simp [dot]
  | cons a v ih =>
    intro w
    cases w with
    | nil =>
      rw [dot_nil_right, dot_nil_right]
      simp
    | cons b w =>
      rw [dot_cons, dot_cons, dot_cons]
      have hS := ih w
      have hA := dot_self_nonneg v
      have hB := dot_self_nonneg w
      by_cases hB0 : dot w w = 0
      · have hS0 : dot v w = 0 := by
          have h1 : (dot v w) ^ 2 ≤ 0 := by rw [hB0] at hS; linarith
          have h2 : 0 ≤ (dot v w) ^ 2 := sq_nonneg _
          have := le_antisymm h1 h2
          exact pow_eq_zero_iff (by norm_num) |>.mp this
        rw [hS0, hB0]
        nlinarith [mul_nonneg hA (mul_self_nonneg b)]
      · have hBpos : 0 < dot w w := lt_of_le_of_ne hB (Ne.symm hB0)
        nlinarith [sq_nonneg (a * dot w w - b * dot v w),
          mul_nonneg (add_nonneg (mul_self_nonneg b) hB) (sub_nonneg.mpr hS)]

theorem collectGo_mem_sim {fl : Option String} {top : List Nat} {sims : List ℚ} :
    ∀ {ds : List DocumentEntry} {cur : Nat} {r : SearchResult},
      r ∈ collectGo fl top sims ds cur → ∃ i ∈ top, r.similarity = simAt sims i := by
  intro ds
  induction ds with
  | nil =>
    intro cur r hr
    exact absurd hr (List.not_mem_nil r)
  | cons d ds ih =>
    intro cur r hr
    unfold collectGo at hr
    split at hr
    · exact ih hr
    · rcases List.mem_append.mp hr with h1 | h2
      · obtain ⟨_, i, hi, _, hre⟩ := mem_docResults h1
        exact ⟨i, hi, by rw [hre]; simp [mkSearchResult]⟩
      · exact ih h2

theorem simsOf_getD (db : VectorDatabase) (q : List ℚ) (i : Nat)
    (hi : i < db.embeddings.length) :
    simAt (simsOf db q) i = dot (db.embeddings.get ⟨i, hi⟩) q := by
  unfold simAt simsOf
  have hi2 : i < (db.embeddings.map (fun row => dot row q)).length := by simpa using hi
  rw [List.getD_eq_get _ _ hi2]
  simp

/-- C5 (amended): `search_similar` computes each returned score as the **raw
dot product** of the stored embedding row and the query — no L2
normalization happens inside search.  The score coincides with cosine
similarity exactly when the vectors are already normalized: if every stored
row and the query have `dot v v = 1` (unit L2 norm), every score lies in
`[-1, 1]` (Cauchy-Schwarz); for unnormalized vectors the claimed bound fails
(see the counterexample). -/
theorem search_scores_are_dot (db : VectorDatabase) (q : List ℚ) (k : Int)
    (fl : Option String) (r : SearchResult) (hr : r ∈ db.search_similar q k fl) :
    (∃ i, ∃ hi : i < db.embeddings.length,
      r.similarity = dot (db.embeddings.get ⟨i, hi⟩) q) ∧
    ((∀ row ∈ db.embeddings, dot row row = 1) → dot q q = 1 →
      -1 ≤ r.similarity ∧ r.similarity ≤ 1) := by
  unfold VectorDatabase.search_similar at hr
  split at hr
  · exact absurd hr (List.not_mem_nil r)
  · have hr1 := (pyTake_sublist _ _).subset hr
    have hr2 := (sortDesc_perm _).mem_iff.mp hr1
    obtain ⟨i, hi, hsim⟩ := collectGo_mem_sim hr2
    have hilt : i < db.embeddings.length := mem_topIndices hi
    have hdot : r.similarity = dot (db.embeddings.get ⟨i, hilt⟩) q := by
      rw [hsim, simsOf_getD db q i hilt]
    refine ⟨⟨i, hilt, hdot⟩, fun hrows hq => ?_⟩
    have hrow1 : dot (db.embeddings.get ⟨i, hilt⟩) (db.embeddings.get ⟨i, hilt⟩) = 1 :=
      hrows _ (List.get_mem db.embeddings i hilt)
    have hcs := dot_sq_le (db.embeddings.get ⟨i, hilt⟩) q
    rw [hrow1, hq, one_mul] at hcs
    rw [hdot]
    constructor
    · nlinarith [hcs]
    · nlinarith [hcs]

theorem search_scores_are_dot_witness :
    (mkSearchResult (sampleDoc "A" "a" 1) 0 1) ∈ dbOne.search_similar [1] 1 none ∧
    ((∃ i, ∃ hi : i < dbOne.embeddings.length,
      (mkSearchResult (sampleDoc "A" "a" 1) 0 1).similarity =
        dot (dbOne.embeddings.get ⟨i, hi⟩) [1]) ∧
    ((∀ row ∈ dbOne.embeddings, dot row row = 1) → dot [(1 : ℚ)] [1] = 1 →
      -1 ≤ (mkSearchResult (sampleDoc "A" "a" 1) 0 1).similarity ∧
        (mkSearchResult (sampleDoc "A" "a" 1) 0 1).similarity ≤ 1)) := by
  have hmem : (mkSearchResult (sampleDoc "A" "a" 1) 0 1) ∈ dbOne.search_similar [1] 1 none := by
    norm_num [dbOne, mkDB, sampleDoc, sampleChunk, VectorDatabase.search_similar, simsOf, dot,
      topIndices, argsortAsc, insertAscIdx, simAt, pyTake, collectGo, docResults,
      mkSearchResult, sortDesc, insertDesc, filterSkip, rebuildIndex, rebuildGo, indexSet,
      List.range_succ, List.filterMap_cons, List.filterMap_nil]
  exact ⟨hmem, search_scores_are_dot dbOne [1] 1 none _ hmem⟩

/-! ## C2: index and span lemmas -/

/-- The enumerated `(document_id, position)` pairs that `_rebuild_index`
produces when ids are distinct. -/
def idxPairs : List DocumentEntry → Nat → List (String × Nat)
  | [], _ => []
  | d :: ds, i => (d.document_id, i) :: idxPairs ds (i + 1)

theorem indexSet_append (idx : List (String × Nat)) (k : String) (v : Nat)
    (h : ∀ pair ∈ idx, pair.1 ≠ k) : indexSet idx k v = idx ++ [(k, v)] := by
  induction idx with
  | nil => rfl
  | cons p rest ih =>
    cases p with
    | mk k' v' =>
      have hp : k' ≠ k := h (k', v') (List.mem_cons_self _ rest)
      simp only [indexSet, if_neg hp]
      rw [ih (fun pair hpair => h pair (List.mem_cons_of_mem _ hpair))]
      simp

theorem rebuildGo_eq (l : List DocumentEntry) :
    ∀ (i : Nat) (idx : List (String × Nat)),
      (∀ d ∈ l, ∀ pair ∈ idx, pair.1 ≠ d.document_id) →
      (l.map (·.document_id)).Nodup →
      rebuildGo l i idx = idx ++ idxPairs l i := by
  induction l with
  | nil =>
    intro i idx _ _
    simp [rebuildGo, idxPairs]
  | cons d ds ih =>
    intro i idx hdisj hnd
    simp only [rebuildGo, idxPairs]
    rw [indexSet_append idx d.document_id i
      (fun pair hp => hdisj d (List.mem_cons_self d ds) pair hp)]
    have hhead : d.document_id ∉ ds.map (·.document_id) := by
      rw [List.map_cons, List.nodup_cons] at hnd
      exact hnd.1
    rw [ih (i + 1) (idx ++ [(d.document_id, i)]) ?_ ?_]
    · simp
    · intro d' hd' pair hp
      rcases List.mem_append.mp hp with h1 | h2
      · exact hdisj d' (List.mem_cons_of_mem d hd') pair h1
      · rw [List.mem_singleton.mp h2]
        show d.document_id ≠ d'.document_id
        intro heq
        exact hhead (heq ▸ List.mem_map_of_mem (·.document_id) hd')
    · rw [List.map_cons, List.nodup_cons] at hnd
      exact hnd.2

theorem rebuildIndex_eq (docs : List DocumentEntry)
    (hnd : (docs.map (·.document_id)).Nodup) : rebuildIndex docs = idxPairs docs 0 := by
  unfold rebuildIndex
  rw [rebuildGo_eq docs 0 []
    (fun d _ pair hp => absurd hp (List.not_mem_nil pair)) hnd]
  simp

theorem indexLookup_idxPairs_none (l : List DocumentEntry) :
    ∀ (i : Nat) (s : String), s ∉ l.map (·.document_id) →
      indexLookup (idxPairs l i) s = none := by
  induction l with
  | nil => intro i s _; rfl
  | cons d ds ih =>
    intro i s hs
    have hd : d.document_id ≠ s := by
      intro heq
      exact hs (heq ▸ List.mem_map_of_mem (·.document_id) (List.mem_cons_self d ds))
    simp only [idxPairs, indexLookup, if_neg hd]
    exact ih (i + 1) s (fun h => hs (List.map_cons (·.document_id) d ds ▸
      List.mem_cons_of_mem _ h))

theorem indexLookup_idxPairs (l : List DocumentEntry) :
    ∀ (s : String) (p i : Nat) (hp : p < l.length),
      (l.map (·.document_id)).Nodup →
      (l.get ⟨p, hp⟩).document_id = s →
      indexLookup (idxPairs l i) s = some (i + p) := by
  induction l with
  | nil =>
    intro s p i hp _ _
    exact absurd hp (by simp)
  | cons d ds ih =>
    intro s p i hp hnd hid
    cases p with
    | zero =>
      simp only [List.get] at hid
      simp only [idxPairs, indexLookup, if_pos hid, Nat.add_zero]
    | succ p =>
      have hp2 : p < ds.length := by
        have := hp
        simp only [List.length_cons] at this
        omega
      have hid2 : (ds.get ⟨p, hp2⟩).document_id = s := hid
      have hd : d.document_id ≠ s := by
        rw [List.map_cons, List.nodup_cons] at hnd
        intro heq
        exact hnd.1 (heq.trans hid2.symm ▸
          List.mem_map_of_mem (·.document_id) (List.get_mem ds p hp2))
      simp only [idxPairs, indexLookup, if_neg hd]
      rw [ih s p (i + 1) hp2 (by rw [List.map_cons, List.nodup_cons] at hnd; exact hnd.2) hid2]
      congr 1
      omega

theorem counts_decomp (db : VectorDatabase) (p : Nat) (hp : p < db.documents.length) :
    (db.documents.map (·.chunk_count)).sum =
      docStart db p + (db.documents.get ⟨p, hp⟩).chunk_count +
        ((db.documents.drop (p + 1)).map (·.chunk_count)).sum := by
  conv_lhs => rw [← List.take_append_drop p db.documents, List.drop_eq_get_cons hp]
  rw [List.map_append, List.sum_append, List.map_cons, List.sum_cons]
  unfold docStart
  omega

theorem eraseIdx_counts (db : VectorDatabase) (p : Nat) (hp : p < db.documents.length) :
    ((db.documents.eraseIdx p).map (·.chunk_count)).sum +
      (db.documents.get ⟨p, hp⟩).chunk_count =
      (db.documents.map (·.chunk_count)).sum := by
  rw [List.eraseIdx_eq_take_drop_succ, List.map_append, List.sum_append,
    counts_decomp db p hp]
  unfold docStart
  omega

theorem remove_not_found (db : VectorDatabase) (hwf : wellFormed db) (s : String)
    (hs : s ∉ db.documents.map (·.document_id)) :
    db.remove_document s = (false, db) := by
  unfold VectorDatabase.remove_document
  rw [hwf.2.2.2, rebuildIndex_eq _ hwf.2.2.1, indexLookup_idxPairs_none _ 0 s hs]

theorem remove_found (db : VectorDatabase) (hwf : wellFormed db) (s : String)
    (p : Nat) (hp : p < db.documents.length)
    (hid : (db.documents.get ⟨p, hp⟩).document_id = s) :
    db.remove_document s = (true,
      { documents := db.documents.eraseIdx p
        embeddings := db.embeddings.take (docStart db p) ++
          db.embeddings.drop (docStart db p + (db.documents.get ⟨p, hp⟩).chunk_count)
        document_index := rebuildIndex (db.documents.eraseIdx p) }) := by
  unfold VectorDatabase.remove_document
  rw [hwf.2.2.2, rebuildIndex_eq _ hwf.2.2.1,
    indexLookup_idxPairs db.documents s p 0 hp hwf.2.2.1 hid]
  simp only [Nat.zero_add]
  rw [List.getD_eq_get _ _ hp]

theorem remove_wf (db : VectorDatabase) (hwf : wellFormed db) (s : String) :
    wellFormed (db.remove_document s).2 := by
  by_cases hs : s ∈ db.documents.map (·.document_id)
  · rcases List.mem_map.mp hs with ⟨d, hd, hds⟩
    rcases List.mem_iff_get.mp hd with ⟨⟨p, hp⟩, hdp⟩
    have hid : (db.documents.get ⟨p, hp⟩).document_id = s := by rw [hdp]; exact hds
    rw [remove_found db hwf s p hp hid]
    refine ⟨?_, ?_, ?_, rfl⟩
    · simp only [List.length_append, List.length_take, List.length_drop]
      have h1 := hwf.1
      have h2 := counts_decomp db p hp
      have h3 := eraseIdx_counts db p hp
      rw [Nat.min_eq_left (by omega)]
      omega
    · intro d' hd'
      exact hwf.2.1 d' ((List.eraseIdx_sublist db.documents p).subset hd')
    · exact (hwf.2.2.1).sublist ((List.eraseIdx_sublist db.documents p).map (·.document_id))
  · rw [remove_not_found db hwf s hs]
    exact hwf

theorem idxPairs_key_mem {l : List DocumentEntry} :
    ∀ {i : Nat} {pair : String × Nat}, pair ∈ idxPairs l i →
      pair.1 ∈ l.map (·.document_id) := by
  induction l with
  | nil => intro i pair h; exact absurd h (List.not_mem_nil pair)
  | cons d ds ih =>
    intro i pair h
    rcases List.mem_cons.mp h with rfl | h2
    · exact List.mem_map_of_mem _ (List.mem_cons_self d ds)
    · rw [List.map_cons]
      exact List.mem_cons_of_mem _ (ih h2)

theorem idxPairs_append (l : List DocumentEntry) (e : DocumentEntry) :
    ∀ i : Nat, idxPairs (l ++ [e]) i = idxPairs l i ++ [(e.document_id, i + l.length)] := by
  induction l with
  | nil => intro i; simp [idxPairs]
  | cons d ds ih =>
    intro i
    simp only [List.cons_append, List.append_eq, idxPairs, ih (i + 1), List.length_cons]
    have hi : i + 1 + ds.length = i + (ds.length + 1) := by omega
    rw [hi]

theorem add_wf (db : VectorDatabase) (hwf : wellFormed db) (dd : DocumentData)
    (chunks : List Chunk) (embeds : List (List ℚ)) (id now : String)
    (hlen : chunks.length = embeds.length)
    (hfresh : id ∉ db.documents.map (·.document_id)) :
    wellFormed (db.add_document dd chunks embeds id now).2 := by
  have hnew : (((db.add_document dd chunks embeds id now).2.documents).map
      (·.document_id)).Nodup := by
    simp only [VectorDatabase.add_document, List.map_append, List.map_cons, List.map_nil]
    rw [List.nodup_append]
    refine ⟨hwf.2.2.1, List.nodup_singleton _, ?_⟩
    intro a ha hb
    rw [List.mem_singleton.mp hb] at ha
    exact hfresh ha
  refine ⟨?_, ?_, hnew, ?_⟩
  · simp only [VectorDatabase.add_document, List.length_append, List.map_append,
      List.map_cons, List.map_nil, List.sum_append, List.sum_cons, List.sum_nil]
    have h1 := hwf.1
    omega
  · intro d hd
    simp only [VectorDatabase.add_document] at hd
    rcases List.mem_append.mp hd with h1 | h2
    · exact hwf.2.1 d h1
    · rw [List.mem_singleton.mp h2]
  · show indexSet db.document_index id db.documents.length =
      rebuildIndex ((db.add_document dd chunks embeds id now).2.documents)
    rw [hwf.2.2.2, rebuildIndex_eq db.documents hwf.2.2.1,
      indexSet_append _ id db.documents.length
        (fun pair hp heq => hfresh (heq ▸ idxPairs_key_mem hp)),
      rebuildIndex_eq _ hnew]
    show idxPairs db.documents 0 ++ [(id, db.documents.length)] =
      idxPairs (db.documents ++ [(⟨id, dd.file_name, dd.file_path, dd.file_hash,
        dd.file_type, dd.file_size, dd.word_count, dd.char_count, chunks.length,
        now, chunks⟩ : DocumentEntry)]) 0
    rw [idxPairs_append]
    simp

theorem wellFormed_spansPartition (db : VectorDatabase) (hwf : wellFormed db) :
    spansPartition db := by
  refine ⟨rfl, ?_, ?_⟩
  · unfold docStart
    rw [List.take_length]
    exact hwf.1.symm
  · intro p hp
    constructor
    · show ((db.documents.take (p + 1)).map (·.chunk_count)).sum =
        ((db.documents.take p).map (·.chunk_count)).sum +
          (db.documents.get ⟨p, hp⟩).chunk_count
      rw [List.take_succ]
      have hg : db.documents[p]? = some (db.documents.get ⟨p, hp⟩) := by
        rw [List.getElem?_eq_getElem hp]
        simp
      rw [hg]
      simp only [Option.toList_some, List.map_append, List.map_cons, List.map_nil,
        List.sum_append, List.sum_cons, List.sum_nil, List.get_eq_getElem]
      omega
    · exact hwf.2.1 _ (List.get_mem _ _ _)

theorem applyOp_wf (db : VectorDatabase) (op : DBOp) (hwf : wellFormed db)
    (hok : opOK db op) : wellFormed (applyOp db op) := by
  cases op with
  | add dd chunks embeds id now => exact add_wf db hwf dd chunks embeds id now hok.1 hok.2
  | remove s => exact remove_wf db hwf s

theorem applyOps_wf (ops : List DBOp) :
    ∀ (db : VectorDatabase), wellFormed db → opsOK db ops →
      wellFormed (applyOps db ops) := by
  induction ops with
  | nil => intro db hwf _; exact hwf
  | cons op ops ih =>
    intro db hwf hok
    exact ih (applyOp db op) (applyOp_wf db op hwf hok.1) hok.2

/-- C2: starting from any well-formed store, after any sequence of
`add_document`/`remove_document` calls — each add supplying equally many
chunks and embedding rows and a fresh `uuid4` id — the store stays
well-formed: every document's `chunk_count` equals its chunk-list length,
the embedding matrix holds exactly one row per stored chunk, and the derived
row spans (`docStart`) form a contiguous partition of `[0, total_rows)`
(starting at 0, consecutive, ending at the row count).  Moreover removing
any stored document from the resulting state succeeds, deletes exactly its
`chunk_count` rows, erases exactly that document, and leaves a well-formed
state whose index and spans are re-derived. -/
theorem row_span_invariant (db : VectorDatabase) (ops : List DBOp)
    (hwf : wellFormed db) (hok : opsOK db ops) :
    wellFormed (applyOps db ops) ∧ spansPartition (applyOps db ops) ∧
    ∀ (s : String) (p : Nat) (hp : p < (applyOps db ops).documents.length),
      ((applyOps db ops).documents.get ⟨p, hp⟩).document_id = s →
      ((applyOps db ops).remove_document s).1 = true ∧
      ((applyOps db ops).remove_document s).2.documents =
        (applyOps db ops).documents.eraseIdx p ∧
      ((applyOps db ops).remove_document s).2.embeddings.length +
        ((applyOps db ops).documents.get ⟨p, hp⟩).chunk_count =
        (applyOps db ops).embeddings.length ∧
      wellFormed ((applyOps db ops).remove_document s).2 := by
  have hwf2 : wellFormed (applyOps db ops) := applyOps_wf ops db hwf hok
  refine ⟨hwf2, wellFormed_spansPartition _ hwf2, ?_⟩
  intro s p hp hid
  rw [remove_found (applyOps db ops) hwf2 s p hp hid]
  refine ⟨rfl, rfl, ?_, remove_found (applyOps db ops) hwf2 s p hp hid ▸
    remove_wf (applyOps db ops) hwf2 s⟩
  simp only [List.length_append, List.length_take, List.length_drop]
  have h1 := hwf2.1
  have h2 := counts_decomp (applyOps db ops) p hp
  rw [Nat.min_eq_left (by omega)]
  omega

/-- Concrete operation sequence: add a 2-chunk document, add a 1-chunk
document, remove the first. -/
def opsEx : List DBOp :=
  [DBOp.add ⟨"f", "p", "h", "t", 1, 2, 3⟩ [sampleChunk 0, sampleChunk 1]
      [[1, 0], [0, 1]] "idA" "t0",
   DBOp.add ⟨"g", "q", "i", "u", 4, 5, 6⟩ [sampleChunk 0] [[5, 5]] "idB" "t1",
   DBOp.remove "idA"]

theorem row_span_invariant_witness :
    wellFormed (applyOps emptyDB opsEx) ∧ spansPartition (applyOps emptyDB opsEx) ∧
    ∀ (s : String) (p : Nat) (hp : p < (applyOps emptyDB opsEx).documents.length),
      ((applyOps emptyDB opsEx).documents.get ⟨p, hp⟩).document_id = s →
      ((applyOps emptyDB opsEx).remove_document s).1 = true ∧
      ((applyOps emptyDB opsEx).remove_document s).2.documents =
        (applyOps emptyDB opsEx).documents.eraseIdx p ∧
      ((applyOps emptyDB opsEx).remove_document s).2.embeddings.length +
        ((applyOps emptyDB opsEx).documents.get ⟨p, hp⟩).chunk_count =
        (applyOps emptyDB opsEx).embeddings.length ∧
      wellFormed ((applyOps emptyDB opsEx).remove_document s).2 :=
  row_span_invariant emptyDB opsEx (by decide)
    ⟨⟨by decide, by decide⟩, ⟨by decide, by decide⟩, trivial, trivial⟩

/-! ## C8: cache idempotence of generate_embeddings -/

theorem phase1_shift (cache : List (String × List ℚ)) (ts : List String) :
    ∀ i : Nat, phase1 cache ts (i + 1) =
      ((phase1 cache ts i).1, (phase1 cache ts i).2.1,
        (phase1 cache ts i).2.2.map (· + 1)) := by
  induction ts with
  | nil => intro i; rfl
  | cons t ts ih =>
    intro i
    simp only [phase1, ih (i + 1)]
    cases hc : cacheLookup cache t <;> simp

theorem phase1_uncached_lookup (cache : List (String × List ℚ)) (ts : List String) :
    ∀ i : Nat, ∀ t ∈ (phase1 cache ts i).2.1, cacheLookup cache t = none := by
  induction ts with
  | nil => intro i t ht; exact absurd ht (List.not_mem_nil t)
  | cons u ts ih =>
    intro i t ht
    simp only [phase1] at ht
    cases hc : cacheLookup cache u with
    | some e =>
      rw [hc] at ht
      exact ih (i + 1) t ht
    | none =>
      rw [hc] at ht
      rcases List.mem_cons.mp ht with rfl | ht2
      · exact hc
      · exact ih (i + 1) t ht2

theorem phase1_cached_of_not_uncached (cache : List (String × List ℚ)) (ts : List String) :
    ∀ i : Nat, ∀ t ∈ ts, t ∉ (phase1 cache ts i).2.1 →
      (cacheLookup cache t).isSome := by
  induction ts with
  | nil => intro i t ht; exact absurd ht (List.not_mem_nil t)
  | cons u ts ih =>
    intro i t ht hnu
    simp only [phase1] at hnu
    rcases List.mem_cons.mp ht with rfl | ht2
    · cases hc : cacheLookup cache t with
      | some e => rfl
      | none =>
        rw [hc] at hnu
        exact absurd (List.mem_cons_self t _) hnu
    · cases hc : cacheLookup cache u with
      | some e =>
        rw [hc] at hnu
        exact ih (i + 1) t ht2 hnu
      | none =>
        rw [hc] at hnu
        exact ih (i + 1) t ht2 (fun h => hnu (List.mem_cons_of_mem u h))

theorem phase1_uncached_sublist (cache : List (String × List ℚ)) (ts : List String) :
    ∀ i : Nat, List.Sublist (phase1 cache ts i).2.1 ts := by
  induction ts with
  | nil => intro i; exact List.Sublist.refl []
  | cons u ts ih =>
    intro i
    simp only [phase1]
    cases hc : cacheLookup cache u with
    | some e => exact (ih (i + 1)).cons u
    | none => exact (ih (i + 1)).cons₂ u

theorem phase1_all_cached (cache : List (String × List ℚ)) (ts : List String)
    (h : ∀ t ∈ ts, (cacheLookup cache t).isSome) :
    ∀ i : Nat, (phase1 cache ts i).2.1 = [] := by
  induction ts with
  | nil => intro i; rfl
  | cons u ts ih =>
    intro i
    simp only [phase1]
    cases hc : cacheLookup cache u with
    | some e => exact ih (fun t ht => h t (List.mem_cons_of_mem u ht)) (i + 1)
    | none =>
      have := h u (List.mem_cons_self u ts)
      rw [hc] at this
      exact absurd this (by simp)

theorem fold_insert_shift (x : List ℚ) :
    ∀ (ps : List (Nat × List ℚ)) (l : List (List ℚ)),
      (ps.map (fun p => (p.1 + 1, p.2))).foldl
          (fun acc ie => pyInsertIdx acc ie.1 ie.2) (x :: l) =
        x :: ps.foldl (fun acc ie => pyInsertIdx acc ie.1 ie.2) l := by
  intro ps
  induction ps with
  | nil => intro l; rfl
  | cons p ps ih =>
    intro l
    simp only [List.map_cons, List.foldl_cons]
    rw [show pyInsertIdx (x :: l) (p.1 + 1) p.2 = x :: pyInsertIdx l p.1 p.2 from rfl]
    exact ih _

theorem zip_map_succ (is : List Nat) :
    ∀ vals : List (List ℚ),
      List.zip (is.map (· + 1)) vals = (List.zip is vals).map (fun p => (p.1 + 1, p.2)) := by
  induction is with
  | nil => intro vals; rfl
  | cons i is ih =>
    intro vals
    cases vals with
    | nil => rfl
    | cons v vals =>
      simp only [List.map_cons, List.zip_cons_cons]
      rw [ih vals]

theorem phase1_splice (cache : List (String × List ℚ)) (embed : String → List ℚ) :
    ∀ ts : List String,
      (List.zip (phase1 cache ts 0).2.2 ((phase1 cache ts 0).2.1.map embed)).foldl
          (fun acc ie => pyInsertIdx acc ie.1 ie.2) (phase1 cache ts 0).1 =
        ts.map (fun t => (cacheLookup cache t).getD (embed t)) := by
  intro ts
  induction ts with
  | nil => rfl
  | cons t ts ih =>
    simp only [phase1, phase1_shift cache ts 0]
    cases hc : cacheLookup cache t with
    | some e =>
      simp only [List.map_cons, hc, Option.getD_some]
      rw [zip_map_succ, fold_insert_shift]
      rw [ih]
    | none =>
      simp only [List.map_cons, hc, Option.getD_none, List.zip_cons_cons, List.foldl_cons]
      rw [show pyInsertIdx (phase1 cache ts 0).1 0 (embed t) =
        embed t :: (phase1 cache ts 0).1 from rfl]
      rw [zip_map_succ, fold_insert_shift]
      rw [ih]

theorem cacheLookup_insert (c : List (String × List ℚ)) (k : String) (v : List ℚ)
    (t : String) :
    cacheLookup (cacheInsert c k v) t =
      if k = hash_text t then some v else cacheLookup c t := by
  induction c with
  | nil => rfl
  | cons p rest ih =>
    cases p with
    | mk k' v' =>
      by_cases hk : k' = k
      · subst hk
        simp only [cacheInsert, if_pos rfl]
        by_cases ht : k' = hash_text t <;> simp [cacheLookup, ht]
      · simp only [cacheInsert, if_neg hk]
        by_cases ht : k' = hash_text t
        · have : ¬ k = hash_text t := fun h => hk (ht.trans h.symm)
          simp [cacheLookup, ht, this]
        · simp [cacheLookup, ht, ih]

theorem cacheLookup_fold (embed : String → List ℚ) (t : String) :
    ∀ (us : List String) (cache : List (String × List ℚ)),
      cacheLookup (us.foldl (fun c u => cacheInsert c (hash_text u) (embed u)) cache) t =
        if t ∈ us then some (embed t) else cacheLookup cache t := by
  intro us
  induction us with
  | nil => intro cache; simp
  | cons u us ih =>
    intro cache
    simp only [List.foldl_cons]
    rw [ih (cacheInsert cache (hash_text u) (embed u)), cacheLookup_insert]
    by_cases hu : u = t
    · subst hu
      by_cases hm : u ∈ us <;> simp [hm, hash_text]
    · have hne : ¬ (hash_text u = hash_text t) := hu
      by_cases hm : t ∈ us <;> simp [hm, hne, List.mem_cons, Ne.symm hu]

theorem zip_self_map (embed : String → List ℚ) (us : List String) :
    List.zip us (us.map embed) = us.map (fun u => (u, embed u)) := by
  induction us with
  | nil => rfl
  | cons u us ih => simp only [List.map_cons, List.zip_cons_cons, ih]

theorem generate_embeddings_spec (cache : List (String × List ℚ)) (texts : List String)
    (embed : String → List ℚ) :
    (generate_embeddings cache texts embed).embeddings =
      texts.map (fun t => (cacheLookup cache t).getD (embed t)) := by
  simp only [generate_embeddings]
  split
  · rename_i h
    have hs := phase1_splice cache embed texts
    rw [h] at hs
    simpa using hs
  · exact phase1_splice cache embed texts

theorem generate_cache_lookup (cache : List (String × List ℚ)) (texts : List String)
    (embed : String → List ℚ) (t : String) (ht : t ∈ texts) :
    cacheLookup (generate_embeddings cache texts embed).cache t =
      some ((cacheLookup cache t).getD (embed t)) := by
  simp only [generate_embeddings]
  split
  · rename_i h
    have hsome := phase1_cached_of_not_uncached cache texts 0 t ht
      (by rw [h]; exact List.not_mem_nil t)
    obtain ⟨e, he⟩ := Option.isSome_iff_exists.mp hsome
    simp [he]
  · rename_i h
    rw [zip_self_map, List.foldl_map, cacheLookup_fold]
    by_cases hu : t ∈ (phase1 cache texts 0).2.1
    · rw [if_pos hu, phase1_uncached_lookup cache texts 0 t hu]
      rfl
    · rw [if_neg hu]
      obtain ⟨e, he⟩ := Option.isSome_iff_exists.mp
        (phase1_cached_of_not_uncached cache texts 0 t ht hu)
      simp [he]

theorem generate_second_batch (cache : List (String × List ℚ)) (texts : List String)
    (embed : String → List ℚ) :
    (generate_embeddings (generate_embeddings cache texts embed).cache texts embed).batch
      = [] := by
  have hall : ∀ t ∈ texts,
      (cacheLookup (generate_embeddings cache texts embed).cache t).isSome := by
    intro t ht
    rw [generate_cache_lookup cache texts embed t ht]
    rfl
  have h2 := phase1_all_cached _ texts hall 0
  generalize hc : (generate_embeddings cache texts embed).cache = c1 at h2 ⊢
  simp only [generate_embeddings]
  split
  · rfl
  · rename_i h
    exact absurd h2 h

theorem generate_batch_sublist (cache : List (String × List ℚ)) (texts : List String)
    (embed : String → List ℚ) :
    List.Sublist (generate_embeddings cache texts embed).batch texts := by
  simp only [generate_embeddings]
  split
  · exact List.nil_sublist texts
  · exact phase1_uncached_sublist cache texts 0

/-- C8 (amended): with the second call issued on the cache produced by the
first, (a) the second call passes **no** text to the embedding function (its
batch is empty — a pure cache hit), (b) both calls return the same
embeddings, in input order (`texts.map` of the per-text value: the cached
vector if present, else the freshly embedded one — the `list.insert` splice
is order-correct), and (c) when the texts are pairwise distinct, the
embedding function is invoked at most once per unique text across both
calls.  The original claim's "at most once per unique text" fails for
duplicate texts within one call: the code does not deduplicate a batch (see
the counterexample). -/
theorem cache_idempotent (cache : List (String × List ℚ)) (texts : List String)
    (embed : String → List ℚ) (hnd : texts.Nodup) :
    (generate_embeddings (generate_embeddings cache texts embed).cache texts embed).batch
      = [] ∧
    (generate_embeddings (generate_embeddings cache texts embed).cache texts
        embed).embeddings = (generate_embeddings cache texts embed).embeddings ∧
    (generate_embeddings cache texts embed).embeddings =
      texts.map (fun t => (cacheLookup cache t).getD (embed t)) ∧
    ∀ t : String,
      ((generate_embeddings cache texts embed).batch ++
        (generate_embeddings (generate_embeddings cache texts embed).cache texts
          embed).batch).count t ≤ 1 := by
  refine ⟨generate_second_batch cache texts embed, ?_,
    generate_embeddings_spec cache texts embed, ?_⟩
  · rw [generate_embeddings_spec, generate_embeddings_spec]
    apply List.map_congr_left
    intro t ht
    rw [generate_cache_lookup cache texts embed t ht]
    rfl
  · intro t
    rw [generate_second_batch cache texts embed, List.append_nil]
    refine le_trans ((generate_batch_sublist cache texts embed).count_le t) ?_
    exact List.nodup_iff_count_le_one.mp hnd t

theorem cache_idempotent_witness :
    (["a", "b"] : List String).Nodup ∧
    ((generate_embeddings (generate_embeddings [] ["a", "b"] (fun _ => [1])).cache
        ["a", "b"] (fun _ => [1])).batch = [] ∧
    (generate_embeddings (generate_embeddings [] ["a", "b"] (fun _ => [1])).cache
        ["a", "b"] (fun _ => [1])).embeddings =
      (generate_embeddings [] ["a", "b"] (fun _ => [1])).embeddings ∧
    (generate_embeddings [] ["a", "b"] (fun _ => [1])).embeddings =
      (["a", "b"] : List String).map
        (fun t => (cacheLookup [] t).getD ((fun _ => [(1 : ℚ)]) t)) ∧
    ∀ t : String,
      ((generate_embeddings [] ["a", "b"] (fun _ => [1])).batch ++
        (generate_embeddings (generate_embeddings [] ["a", "b"] (fun _ => [1])).cache
          ["a", "b"] (fun _ => [1])).batch).count t ≤ 1) :=
  ⟨by decide, cache_idempotent [] ["a", "b"] (fun _ => [1]) (by decide)⟩

/-- C8 counterexample: a single call with the duplicated text list
`["a", "a"]` and an empty cache passes `"a"` to the embedding function
twice within the one batch — the claimed "at most once per unique text"
fails because the code deduplicates nothing inside a batch. -/
theorem embed_batch_duplicates :
    (generate_embeddings [] ["a", "a"] (fun _ => [1])).batch.count "a" = 2 ∧
    ¬ (generate_embeddings [] ["a", "a"] (fun _ => [1])).batch.count "a" ≤ 1 := by
  constructor <;> decide
